import Mathlib

/-!
Shallow embedding of `analyze-errors.py`, a TypeScript-diagnostics
summarizer: it reads a file, tallies `error TS####` codes and leading
`path(` file paths per line, and prints two ranked reports.
-/

/-- A line of text. -/
abbrev Line := List Char

/-- A tally in key-insertion order: each key maps to the list of lines
appended for it. Models a Python `defaultdict(list)` (dicts preserve
key-insertion order). -/
abbrev Tally := List (Line × List Line)

/-- `text.split('\n')`: split on every newline; `n` newlines give `n + 1`
pieces, so the empty text gives `[[]]` and a trailing newline a final `[]`. -/
def splitNl : List Char → List (List Char)
  | [] => [[]]
  | c :: rest =>
    if c = '\n' then [] :: splitNl rest
    else
      match splitNl rest with
      | [] => [[c]]
      | piece :: pieces => (c :: piece) :: pieces

/-- The fixed text `error TS` that must occur for the error-code regex
`error (TS\d+)` to match at a position. -/
def errPat : List Char := "error TS".toList

/-- Attempt of the regex `error (TS\d+)` at the start of `l`: the literal
`error`, one space, `TS`, then the greedy (maximal) run of one or more
digits; yields the captured group, `TS` plus the digits. -/
def matchErrorAt (l : List Char) : Option (List Char) :=
  if errPat.isPrefixOf l then
    if ((l.drop 8).takeWhile Char.isDigit).isEmpty then none
    else some ('T' :: 'S' :: (l.drop 8).takeWhile Char.isDigit)
  else none

/-- `re.search(r'error (TS\d+)', line)`: try every position left to right,
the leftmost successful one wins. -/
def errorCodeOf : List Char → Option (List Char)
  | [] => none
  | c :: rest =>
    match matchErrorAt (c :: rest) with
    | some code => some code
    | none => errorCodeOf rest

/-- `re.search(r'^([^\(]+)\(', line)`: anchored at the start of the line, a
maximal nonempty run of non-`(` characters followed by `(`; yields the run. -/
def filePathOf (l : List Char) : Option (List Char) :=
  if (l.takeWhile (fun c => c ≠ '(')).isEmpty then none
  else if (l.takeWhile (fun c => c ≠ '(')).length = l.length then none
  else some (l.takeWhile (fun c => c ≠ '('))

/-- `d[key].append(line)` on a `defaultdict(list)` kept as an
insertion-ordered association list: append to the existing entry, or add a
new key at the end. -/
def addEntry : Tally → Line → Line → Tally
  | [], k, v => [(k, [v])]
  | (k', vs) :: rest, k, v =>
    if k' = k then (k', vs ++ [v]) :: rest else (k', vs) :: addEntry rest k v

/-- One loop iteration: extract a key from the line and, on a match, append
the full line under that key; otherwise leave the tally unchanged. -/
def tallyStep (extract : List Char → Option (List Char)) (m : Tally) (l : Line) : Tally :=
  match extract l with
  | some k => addEntry m k l
  | none => m

/-- Run one extraction loop over all lines, starting from the empty tally. -/
def buildTally (extract : List Char → Option (List Char)) (lines : List Line) : Tally :=
  lines.foldl (tallyStep extract) []

/-- The `error_types` tally of the script. -/
def error_types (lines : List Line) : Tally := buildTally errorCodeOf lines

/-- The `file_errors` tally of the script. -/
def file_errors (lines : List Line) : Tally := buildTally filePathOf lines

/-- Look a key up in a tally: the stored lines, `[]` when the key is absent. -/
def tallyGet : Tally → Line → List Line
  | [], _ => []
  | (k', vs) :: rest, k => if k' = k then vs else tallyGet rest k

/-- Total number of stored lines across all keys of a tally. -/
def sumCounts (m : Tally) : Nat := (m.map (fun p => p.2.length)).sum

/-- `sorted(m.items(), key=lambda x: -len(x[1]))`: sort by descending count.
Python's sort is stable, so any stable sort by the same key models it;
`List.mergeSort` is stable. -/
def sortByCount (m : Tally) : Tally :=
  m.mergeSort (fun a b => b.2.length ≤ a.2.length)

/-- Decimal rendering of a count (Python `str` of a nonnegative int), with
explicit fuel for structural recursion; `n + 1` steps always suffice since
the value shrinks by a factor of ten each step. -/
def natReprAux : Nat → Nat → List Char
  | 0, _ => []
  | fuel + 1, n =>
    if n < 10 then [Nat.digitChar n]
    else natReprAux fuel (n / 10) ++ [Nat.digitChar (n % 10)]

/-- Decimal rendering of `n`. -/
def natRepr (n : Nat) : List Char := natReprAux (n + 1) n

/-- `f'{key}: {count} errors'`. -/
def fmtEntry (k : Line) (n : Nat) : List Char :=
  k ++ (": ").toList ++ natRepr n ++ (" errors").toList

/-- The error-code report: one line per key, most frequent first. -/
def errorReportLines (lines : List Line) : List Line :=
  (sortByCount (error_types lines)).map (fun p => fmtEntry p.1 p.2.length)

/-- `"=" * 60`. -/
def sepLine : List Char := List.replicate 60 '='

/-- The heading printed before the file report. -/
def headingLine : List Char := "Files with most errors:".toList

/-- The key text excluded from the file report. -/
def nmPat : List Char := "node_modules".toList

/-- The file-report entries: rank by count, keep the first 20
(`sorted(...)[:20]`), then drop `node_modules`-headed keys from that
capped list (the `if not filepath.startswith(...)` inside the loop). -/
def fileReportEntries (m : Tally) : Tally :=
  ((sortByCount m).take 20).filter (fun p => !(nmPat.isPrefixOf p.1))

/-- The file report: one line per surviving entry. -/
def fileReportLines (lines : List Line) : List Line :=
  (fileReportEntries (file_errors lines)).map (fun p => fmtEntry p.1 p.2.length)

/-- The arguments of the script's `print` calls, in order: the error report,
then `"\n" + "=" * 60` (a single print whose argument holds an embedded
newline), the heading, and the file report. -/
def programPrints (text : List Char) : List (List Char) :=
  errorReportLines (splitNl text)
    ++ ['\n' :: sepLine, headingLine]
    ++ fileReportLines (splitNl text)

/-- The byte stream written to stdout: each `print(s)` writes `s` and then a
newline. -/
def stdoutStream (text : List Char) : List Char :=
  ((programPrints text).map (fun s => s ++ ['\n'])).flatten

/-- The ways `open(INPUT_FILE)` can fail. -/
inductive OpenError where
  | fileNotFound
  | permissionDenied
  | other
deriving DecidableEq

/-- `f"Error: '{INPUT_FILE}' not found. Run 'npx tsc --noEmit 2> {INPUT_FILE}' first."` -/
def notFoundMsg (path : List Char) : List Char :=
  ("Error: '").toList ++ path ++ ("' not found. Run 'npx tsc --noEmit 2> ").toList
    ++ path ++ ("' first.").toList

/-- A process outcome: a normal exit carrying the stdout stream, the stderr
lines and the exit code, or termination by an exception no handler catches. -/
inductive Outcome where
  | exited (stdout : List Char) (stderr : List (List Char)) (code : Nat)
  | uncaught (e : OpenError)
deriving DecidableEq

/-- The whole program, given what `open(INPUT_FILE)` yields. The
`try/except FileNotFoundError` block prints guidance to stderr and exits 1
on exactly that error; any other open error propagates out of the `try`
uncaught. On success the two reports are printed and the process exits 0. -/
def runProgram (path : List Char) (openResult : Except OpenError (List Char)) : Outcome :=
  match openResult with
  | .ok text => .exited (stdoutStream text) [] 0
  | .error .fileNotFound => .exited [] [notFoundMsg path] 1
  | .error e => .uncaught e

/-- The spec's error-handling contract at an open failure: a normal exit,
nonzero, with the actionable guidance line on stderr. Written from the
spec's words, for comparison with `runProgram`. -/
def reportsGuidance (path : List Char) (o : Outcome) : Prop :=
  ∃ out err code, o = Outcome.exited out err code ∧ notFoundMsg path ∈ err ∧ code ≠ 0

/-- The spec's worked example input: three diagnostic lines. -/
def exampleText : List Char :=
  ("a.ts(1,1): error TS2322: x\na.ts(2,2): error TS2322: y\nb.ts(1,1): error TS7006: z").toList

/-! ### Tally lemmas -/

theorem tallyGet_addEntry_self (m : Tally) (k v : Line) :
    tallyGet (addEntry m k v) k = tallyGet m k ++ [v] := by
  induction m with
  | nil => simp [addEntry, tallyGet]
  | cons p rest ih =>
    obtain ⟨k', vs⟩ := p
    by_cases h : k' = k
    · subst h; simp [addEntry, tallyGet]
    · simp [addEntry, tallyGet, h, ih]

theorem tallyGet_addEntry_ne (m : Tally) {k k' : Line} (h : k' ≠ k) (v : Line) :
    tallyGet (addEntry m k' v) k = tallyGet m k := by
  induction m with
  | nil => simp [addEntry, tallyGet, h]
  | cons p rest ih =>
    obtain ⟨k'', vs⟩ := p
    by_cases h2 : k'' = k'
    · subst h2; simp [addEntry, tallyGet, h]
    · simp [addEntry, tallyGet, h2, ih]

theorem sumCounts_addEntry (m : Tally) (k v : Line) :
    sumCounts (addEntry m k v) = sumCounts m + 1 := by
  induction m with
  | nil => simp [addEntry, sumCounts]
  | cons p rest ih =>
    obtain ⟨k', vs⟩ := p
    by_cases h : k' = k
    · subst h; simp [addEntry, sumCounts]; omega
    · simp [addEntry, sumCounts, h] at ih ⊢; omega

theorem tallyGet_foldl (f : List Char → Option (List Char)) (lines : List Line)
    (m : Tally) (k : Line) :
    tallyGet (lines.foldl (tallyStep f) m) k
      = tallyGet m k ++ lines.filter (fun l => f l = some k) := by
  induction lines generalizing m with
  | nil => simp
  | cons l ls ih =>
    rw [List.foldl_cons, ih]
    cases hf : f l with
    | none => simp [tallyStep, hf, List.filter_cons]
    | some k' =>
      by_cases hk : k' = k
      · subst hk
        simp [tallyStep, hf, List.filter_cons, tallyGet_addEntry_self]
      · simp [tallyStep, hf, List.filter_cons, hk, tallyGet_addEntry_ne _ hk]

theorem sumCounts_foldl (f : List Char → Option (List Char)) (lines : List Line)
    (m : Tally) :
    sumCounts (lines.foldl (tallyStep f) m)
      = sumCounts m + (lines.filter (fun l => (f l).isSome)).length := by
  induction lines generalizing m with
  | nil => simp
  | cons l ls ih =>
    rw [List.foldl_cons, ih]
    cases hf : f l with
    | none => simp [tallyStep, hf, List.filter_cons]
    | some k' =>
      simp [tallyStep, hf, List.filter_cons, sumCounts_addEntry]
      omega

/-! ### Sorting lemmas -/

theorem countLE_trans (a b c : Line × List Line) :
    (decide (b.2.length ≤ a.2.length)) = true →
    (decide (c.2.length ≤ b.2.length)) = true →
    (decide (c.2.length ≤ a.2.length)) = true := by
  simp only [decide_eq_true_eq]
  omega

theorem countLE_total (a b : Line × List Line) :
    ((decide (b.2.length ≤ a.2.length)) || (decide (a.2.length ≤ b.2.length))) = true := by
  simp only [Bool.or_eq_true, decide_eq_true_eq]
  omega

theorem sortByCount_pairwise (m : Tally) :
    (sortByCount m).Pairwise (fun a b => b.2.length ≤ a.2.length) := by
  have h := List.sorted_mergeSort countLE_trans countLE_total m
  exact h.imp (fun hab => of_decide_eq_true hab)

theorem sortByCount_of_sorted {m : Tally}
    (h : m.Pairwise (fun a b => b.2.length ≤ a.2.length)) : sortByCount m = m := by
  unfold sortByCount
  exact List.mergeSort_of_sorted (h.imp (fun hab => decide_eq_true hab))

/-! ### Claim theorems: reporting order, truncation, error handling -/

/-- C4: in both printed reports the ranking is by descending count — any two
entries appearing in order in the sorted tally have the later count at most
the earlier one, so a key with a strictly larger count always precedes a key
with a smaller count — and the sort is stable: two keys with equal counts
keep the relative order in which they were first inserted into the tally. -/
theorem sort_descending_and_stable (m : Tally) :
    (∀ a b : Line × List Line, List.Sublist [a, b] (sortByCount m) →
        b.2.length ≤ a.2.length)
    ∧ (∀ a b : Line × List Line, a.2.length = b.2.length → List.Sublist [a, b] m →
        List.Sublist [a, b] (sortByCount m)) := by
  constructor
  · intro a b h
    have hp : List.Pairwise (fun x y : Line × List Line => y.2.length ≤ x.2.length) [a, b] :=
      List.Pairwise.sublist h (sortByCount_pairwise m)
    exact (List.pairwise_cons.mp hp).1 b (by simp)
  · intro a b hcount hsub
    unfold sortByCount
    exact List.pair_sublist_mergeSort countLE_trans countLE_total
      (decide_eq_true (by omega)) hsub

/-- Witness for C4 at a concrete tally with two equal-count keys inserted in
the order `a`, `b`: the pair survives sorting in that order. -/
theorem sort_descending_and_stable_witness :
    List.Sublist [((['a'], [['x']]) : Line × List Line), (['b'], [['y']])]
      (sortByCount [(['a'], [['x']]), (['b'], [['y']])]) :=
  (sort_descending_and_stable [(['a'], [['x']]), (['b'], [['y']])]).2
    (['a'], [['x']]) (['b'], [['y']]) (by decide) (List.Sublist.refl _)

/-- C2: the file report truncates the ranked list to the top 20 by count
first and only then drops `node_modules`-headed keys from that capped list:
every printed entry comes from the capped top 20 (a dropped entry is never
backfilled by the 21st), and whenever the top 20 holds at least one excluded
key, strictly fewer than 20 entries are printed. -/
theorem file_report_truncate_then_filter (m : Tally) :
    List.Sublist (fileReportEntries m) ((sortByCount m).take 20)
    ∧ ((∃ p ∈ (sortByCount m).take 20, nmPat <+: p.1) →
        (fileReportEntries m).length < 20) := by
  constructor
  · exact List.filter_sublist _
  · rintro ⟨p, hp, hpre⟩
    have hlt : (fileReportEntries m).length < ((sortByCount m).take 20).length := by
      unfold fileReportEntries
      refine List.length_filter_lt_length_iff_exists.mpr ⟨p, hp, ?_⟩
      simp [List.isPrefixOf_iff_prefix, hpre]
    exact lt_of_lt_of_le hlt (List.length_take_le 20 _)

/-- Witness for C2 at a one-key tally whose key is exactly `node_modules`:
the report prints fewer than 20 entries. -/
theorem file_report_truncate_then_filter_witness :
    (fileReportEntries [(nmPat, [[]])]).length < 20 := by
  have hs : sortByCount [(nmPat, [[]])] = [(nmPat, [[]])] :=
    sortByCount_of_sorted (by simp)
  refine (file_report_truncate_then_filter [(nmPat, [[]])]).2 ⟨(nmPat, [[]]), ?_, ?_⟩
  · rw [hs]; decide
  · exact ⟨[], by simp⟩

/-- C6: the counts are conserved — across all keys, the error-code tally
stores exactly as many lines as match the error-code pattern, and the file
tally exactly as many as match the file-path pattern (both before the
report's filter and cap) — and a stored line always sits under the one key
its extractor yields, so each line feeds at most one entry per tally. -/
theorem tally_conservation (lines : List Line) :
    sumCounts (error_types lines)
        = (lines.filter (fun l => (errorCodeOf l).isSome)).length
    ∧ sumCounts (file_errors lines)
        = (lines.filter (fun l => (filePathOf l).isSome)).length
    ∧ (∀ k l, l ∈ tallyGet (error_types lines) k → errorCodeOf l = some k)
    ∧ (∀ k l, l ∈ tallyGet (file_errors lines) k → filePathOf l = some k) := by
  refine ⟨?_, ?_, ?_, ?_⟩
  · simpa [error_types, buildTally, sumCounts] using sumCounts_foldl errorCodeOf lines []
  · simpa [file_errors, buildTally, sumCounts] using sumCounts_foldl filePathOf lines []
  · intro k l hl
    rw [error_types, buildTally, tallyGet_foldl] at hl
    simp only [tallyGet, List.nil_append, List.mem_filter, decide_eq_true_eq] at hl
    exact hl.2
  · intro k l hl
    rw [file_errors, buildTally, tallyGet_foldl] at hl
    simp only [tallyGet, List.nil_append, List.mem_filter, decide_eq_true_eq] at hl
    exact hl.2

/-- Witness for C6 on a one-line input that matches the error-code pattern:
the total count is 1 and the stored line maps back to its key. -/
theorem tally_conservation_witness :
    sumCounts (error_types [("x: error TS1: y").toList])
      = ([("x: error TS1: y").toList].filter (fun l => (errorCodeOf l).isSome)).length
    ∧ errorCodeOf ("x: error TS1: y").toList = some ("TS1").toList := by
  constructor
  · exact (tally_conservation [("x: error TS1: y").toList]).1
  · exact (tally_conservation [("x: error TS1: y").toList]).2.2.1
      (("TS1").toList) (("x: error TS1: y").toList) (by decide)

/-- C7: a missing input file gives a normal exit with code 1, exactly one
guidance line on stderr and an empty stdout stream; a successful open runs
both reports to completion and exits with code 0 and an empty stderr. -/
theorem exit_code_behavior (path text : List Char) :
    runProgram path (.error .fileNotFound) = .exited [] [notFoundMsg path] 1
    ∧ runProgram path (.ok text) = .exited (stdoutStream text) [] 0 :=
  ⟨rfl, rfl⟩

/-- C3 fails as stated: a permission-denied open error is not given the
actionable message — the `except` clause catches only the file-not-found
error, so any other open error escapes as an uncaught exception instead of
a guided exit. -/
theorem open_error_guidance_counterexample :
    ¬ reportsGuidance ("ts-errors.txt").toList
        (runProgram ("ts-errors.txt").toList (.error .permissionDenied)) := by
  rintro ⟨out, err, code, h, -, -⟩
  simp [runProgram] at h

/-- C3 amended: only the file-not-found failure is reported with the
actionable message — which does name the expected upstream command — and a
guided exit with a nonzero status; every other open failure propagates as
an uncaught exception out of the `try` block. -/
theorem open_error_guidance (path : List Char) :
    runProgram path (.error .fileNotFound) = .exited [] [notFoundMsg path] 1
    ∧ ("Run 'npx tsc --noEmit 2> ").toList <:+: notFoundMsg path
    ∧ (∀ e : OpenError, e ≠ .fileNotFound →
        runProgram path (.error e) = .uncaught e) := by
  refine ⟨rfl, ?_, ?_⟩
  · refine ⟨("Error: '").toList ++ path ++ ("' not found. ").toList,
      path ++ ("' first.").toList, ?_⟩
    have hcat : ("' not found. ").toList ++ ("Run 'npx tsc --noEmit 2> ").toList
        = ("' not found. Run 'npx tsc --noEmit 2> ").toList := by decide
    simp only [notFoundMsg, List.append_assoc, ← hcat]
  · intro e he
    cases e with
    | fileNotFound => exact absurd rfl he
    | permissionDenied => rfl
    | other => rfl

/-- Witness for the amended C3 at a concrete path and the permission-denied
error: the run ends in an uncaught exception. -/
theorem open_error_guidance_witness :
    runProgram ("ts-errors.txt").toList (.error .permissionDenied)
      = .uncaught .permissionDenied :=
  (open_error_guidance ("ts-errors.txt").toList).2.2 .permissionDenied (by decide)

/-! ### Extraction lemmas -/

theorem dropWhile_head_false {α : Type*} (p : α → Bool) :
    ∀ (l : List α) (d : α), (l.dropWhile p).head? = some d → p d = false := by
  intro l
  induction l with
  | nil => intro d h; simp at h
  | cons x xs ih =>
    intro d h
    rw [List.dropWhile_cons] at h
    by_cases hp : p x = true
    · rw [if_pos hp] at h
      exact ih d h
    · rw [if_neg hp] at h
      simp only [List.head?_cons, Option.some.injEq] at h
      subst h
      exact Bool.not_eq_true _ ▸ (Bool.eq_false_iff.mpr hp)

theorem takeWhile_all_append {α : Type*} (p : α → Bool) :
    ∀ (ds rest : List α), (∀ d ∈ ds, p d = true) →
      (∀ d, rest.head? = some d → p d = false) →
      (ds ++ rest).takeWhile p = ds := by
  intro ds
  induction ds with
  | nil =>
    intro rest _ hrest
    cases rest with
    | nil => simp
    | cons r rs =>
      have hr := hrest r rfl
      simp [List.takeWhile_cons, hr]
  | cons d ds ih =>
    intro rest hds hrest
    have hd := hds d (by simp)
    simp only [List.cons_append, List.takeWhile_cons, hd, if_true]
    rw [ih rest (fun x hx => hds x (by simp [hx])) hrest]

theorem errPat_split (ds rest : List Char) :
    ("error").toList ++ ' ' :: (('T' :: 'S' :: ds) ++ rest) = errPat ++ (ds ++ rest) := rfl

theorem matchErrorAt_eq_some_iff (l c : List Char) :
    matchErrorAt l = some c ↔
      ∃ ds rest, c = 'T' :: 'S' :: ds ∧ ds ≠ []
        ∧ (∀ d ∈ ds, d.isDigit = true)
        ∧ l = ("error").toList ++ ' ' :: (c ++ rest)
        ∧ (∀ d, rest.head? = some d → d.isDigit = false) := by
  unfold matchErrorAt
  by_cases hpre : errPat.isPrefixOf l
  · rw [if_pos hpre]
    obtain ⟨t, ht⟩ := List.isPrefixOf_iff_prefix.mp hpre
    have hdrop : l.drop 8 = t := by
      rw [← ht]
      exact List.drop_left' (by decide)
    rw [hdrop]
    by_cases hempty : (t.takeWhile Char.isDigit).isEmpty = true
    · rw [if_pos hempty]
      constructor
      · intro h; exact Option.noConfusion h
      · rintro ⟨ds, rest, hc, hne, hdig, hl, hrest⟩
        subst hc
        rw [errPat_split] at hl
        have ht2 : t = ds ++ rest := List.append_cancel_left (ht.trans hl)
        rw [ht2, takeWhile_all_append _ ds rest hdig hrest] at hempty
        exact absurd (List.isEmpty_iff.mp hempty) hne
    · rw [if_neg hempty]
      constructor
      · intro h
        obtain rfl := Option.some.inj h
        refine ⟨t.takeWhile Char.isDigit, t.dropWhile Char.isDigit, rfl, ?_, ?_, ?_, ?_⟩
        · intro hnil
          rw [hnil] at hempty
          exact hempty rfl
        · intro d hd
          exact List.mem_takeWhile_imp hd
        · rw [errPat_split, List.takeWhile_append_dropWhile, ht]
        · intro d hd
          exact dropWhile_head_false _ t d hd
      · rintro ⟨ds, rest, hc, hne, hdig, hl, hrest⟩
        subst hc
        rw [errPat_split] at hl
        have ht2 : t = ds ++ rest := List.append_cancel_left (ht.trans hl)
        rw [ht2, takeWhile_all_append _ ds rest hdig hrest]
  · rw [if_neg hpre]
    constructor
    · intro h; exact Option.noConfusion h
    · rintro ⟨ds, rest, hc, hne, hdig, hl, hrest⟩
      subst hc
      rw [errPat_split] at hl
      exact absurd (List.isPrefixOf_iff_prefix.mpr ⟨ds ++ rest, hl.symm⟩) hpre

theorem errorCodeOf_eq_some_iff (l c : List Char) :
    errorCodeOf l = some c ↔
      ∃ i, matchErrorAt (l.drop i) = some c ∧ ∀ j < i, matchErrorAt (l.drop j) = none := by
  induction l with
  | nil =>
    simp only [errorCodeOf, List.drop_nil]
    constructor
    · intro h; exact Option.noConfusion h
    · rintro ⟨i, hm, -⟩
      have hnone : matchErrorAt ([] : List Char) = none := by decide
      rw [hnone] at hm
      exact Option.noConfusion hm
  | cons ch t ih =>
    cases hm : matchErrorAt (ch :: t) with
    | some c0 =>
      simp only [errorCodeOf, hm]
      constructor
      · intro h
        obtain rfl := Option.some.inj h
        exact ⟨0, by simpa using hm, fun j hj => absurd hj (Nat.not_lt_zero j)⟩
      · rintro ⟨i, hmi, hnone⟩
        cases i with
        | zero =>
          rw [List.drop_zero] at hmi
          rw [hm] at hmi
          exact hmi
        | succ i' =>
          have h0 := hnone 0 (Nat.succ_pos i')
          rw [List.drop_zero, hm] at h0
          exact Option.noConfusion h0
    | none =>
      simp only [errorCodeOf, hm]
      rw [ih]
      constructor
      · rintro ⟨i, h1, h2⟩
        refine ⟨i + 1, by simpa using h1, ?_⟩
        intro j hj
        cases j with
        | zero => simpa using hm
        | succ j' =>
          rw [List.drop_succ_cons]
          exact h2 j' (by omega)
      · rintro ⟨i, h1, h2⟩
        cases i with
        | zero =>
          rw [List.drop_zero, hm] at h1
          exact absurd h1 (by simp)
        | succ i' =>
          rw [List.drop_succ_cons] at h1
          refine ⟨i', h1, ?_⟩
          intro j hj
          have := h2 (j + 1) (by omega)
          rwa [List.drop_succ_cons] at this

theorem mem_takeWhile_pred {α : Type*} (p : α → Bool) :
    ∀ (l : List α) (x : α), x ∈ l.takeWhile p → p x = true := by
  intro l
  induction l with
  | nil => intro x h; simp at h
  | cons a as ih =>
    intro x h
    rw [List.takeWhile_cons] at h
    by_cases hp : p a = true
    · rw [if_pos hp] at h
      rcases List.mem_cons.mp h with rfl | h2
      · exact hp
      · exact ih x h2
    · rw [if_neg hp] at h
      simp at h

theorem takeWhile_of_decomp (p rest : List Char) (hall : ∀ ch ∈ p, ch ≠ '(') :
    (p ++ '(' :: rest).takeWhile (fun c => decide (c ≠ '(')) = p :=
  takeWhile_all_append _ p ('(' :: rest) (fun d hd => decide_eq_true (hall d hd))
    (fun d hd => by
      simp only [List.head?_cons, Option.some.injEq] at hd
      subst hd
      decide)

theorem filePathOf_eq_some_iff (l p : List Char) :
    filePathOf l = some p ↔
      p ≠ [] ∧ (∀ ch ∈ p, ch ≠ '(') ∧ ∃ rest, l = p ++ '(' :: rest := by
  unfold filePathOf
  by_cases h1 : (l.takeWhile (fun c => decide (c ≠ '('))).isEmpty = true
  · rw [if_pos h1]
    constructor
    · intro h; exact Option.noConfusion h
    · rintro ⟨hne, hall, rest, hl⟩
      rw [hl, takeWhile_of_decomp p rest hall] at h1
      exact absurd (List.isEmpty_iff.mp h1) hne
  · rw [if_neg h1]
    by_cases h2 : (l.takeWhile (fun c => decide (c ≠ '('))).length = l.length
    · rw [if_pos h2]
      constructor
      · intro h; exact Option.noConfusion h
      · rintro ⟨hne, hall, rest, hl⟩
        rw [hl, takeWhile_of_decomp p rest hall] at h2
        simp only [List.length_append, List.length_cons] at h2
        omega
    · rw [if_neg h2]
      constructor
      · intro h
        obtain rfl := Option.some.inj h
        refine ⟨fun hnil => h1 (by rw [hnil]; rfl), ?_, ?_⟩
        · intro ch hch
          exact of_decide_eq_true (mem_takeWhile_pred _ l ch hch)
        · have hsplit := List.takeWhile_append_dropWhile (fun c : Char => decide (c ≠ '(')) l
          cases hdw : l.dropWhile (fun c : Char => decide (c ≠ '(')) with
          | nil =>
            exfalso
            apply h2
            rw [hdw, List.append_nil] at hsplit
            rw [hsplit]
          | cons d ds =>
            have hd : decide (d ≠ '(') = false :=
              dropWhile_head_false _ l d (by rw [hdw]; rfl)
            have hdp : d = '(' := not_not.mp (of_decide_eq_false hd)
            refine ⟨ds, ?_⟩
            conv_lhs => rw [← hsplit]
            rw [hdw, hdp]
      · rintro ⟨hne, hall, rest, hl⟩
        rw [hl, takeWhile_of_decomp p rest hall]

/-! ### Claim theorems: the two extractors -/

/-- C1: on every line the error-code extractor looks for the literal text
`error` followed by a whitespace separator (the single space of the pattern)
and then a token of `TS` plus one or more digits; the leftmost such
occurrence wins (a line with several candidates uses only the first), the
matched token is the tally key, the stored entry for a key is exactly the
full lines whose extraction yields that key, in input order, and a line
with no match contributes to no entry. -/
theorem error_code_extraction :
    (∀ l c, errorCodeOf l = some c ↔
      ∃ i, matchErrorAt (l.drop i) = some c ∧ ∀ j < i, matchErrorAt (l.drop j) = none)
    ∧ (∀ l c, matchErrorAt l = some c ↔
      ∃ ds rest, c = 'T' :: 'S' :: ds ∧ ds ≠ []
        ∧ (∀ d ∈ ds, d.isDigit = true)
        ∧ l = ("error").toList ++ ' ' :: (c ++ rest)
        ∧ (∀ d, rest.head? = some d → d.isDigit = false))
    ∧ (∀ (lines : List Line) (k : Line), tallyGet (error_types lines) k
        = lines.filter (fun l => errorCodeOf l = some k)) := by
  refine ⟨errorCodeOf_eq_some_iff, matchErrorAt_eq_some_iff, ?_⟩
  intro lines k
  rw [error_types, buildTally, tallyGet_foldl]
  simp [tallyGet]

/-- Witness for C1 on the line `zz error TS42!`: the extractor yields the
token `TS42` and the tally stores the full line under that key. -/
theorem error_code_extraction_witness :
    errorCodeOf ("zz error TS42!").toList = some (("TS42").toList)
    ∧ tallyGet (error_types [("zz error TS42!").toList]) (("TS42").toList)
      = [("zz error TS42!").toList] := by
  constructor
  · refine (error_code_extraction.1 _ _).mpr ⟨3, by decide, ?_⟩
    intro j hj
    interval_cases j <;> decide
  · rw [error_code_extraction.2.2]
    decide

/-- C5: on every line the file-path extractor matches, anchored at the start
of the line, one or more characters other than `(` followed by `(`; the
captured prefix (without the parenthesis) is the tally key, the stored
entry for a key is exactly the full lines whose extraction yields that key,
in input order, and a line without this leading-parenthesis structure
contributes to no entry. -/
theorem file_path_extraction :
    (∀ l p, filePathOf l = some p ↔
      p ≠ [] ∧ (∀ ch ∈ p, ch ≠ '(') ∧ ∃ rest, l = p ++ '(' :: rest)
    ∧ (∀ (lines : List Line) (k : Line), tallyGet (file_errors lines) k
        = lines.filter (fun l => filePathOf l = some k)) := by
  refine ⟨filePathOf_eq_some_iff, ?_⟩
  intro lines k
  rw [file_errors, buildTally, tallyGet_foldl]
  simp [tallyGet]

/-- Witness for C5 on the line `a.ts(1,1): x`: the extractor captures the
prefix `a.ts` and the tally stores the full line under that key. -/
theorem file_path_extraction_witness :
    filePathOf ("a.ts(1,1): x").toList = some (("a.ts").toList)
    ∧ tallyGet (file_errors [("a.ts(1,1): x").toList]) (("a.ts").toList)
      = [("a.ts(1,1): x").toList] := by
  constructor
  · exact (file_path_extraction.1 _ _).mpr
      ⟨by decide, by decide, ⟨("1,1): x").toList, by decide⟩⟩
  · rw [file_path_extraction.2]
    decide

/-! ### Claim theorems: worked example and trailing newline -/

/-- C9: on the three example lines the error-code report is `TS2322: 2
errors` then `TS7006: 1 errors`, and the file report is `a.ts: 2 errors`
then `b.ts: 1 errors`. -/
theorem example_three_lines :
    errorReportLines (splitNl exampleText)
      = [("TS2322: 2 errors").toList, ("TS7006: 1 errors").toList]
    ∧ fileReportLines (splitNl exampleText)
      = [("a.ts: 2 errors").toList, ("b.ts: 1 errors").toList] := by
  constructor
  · rw [errorReportLines]
    have he : error_types (splitNl exampleText)
        = [(("TS2322").toList,
            [("a.ts(1,1): error TS2322: x").toList, ("a.ts(2,2): error TS2322: y").toList]),
           (("TS7006").toList, [("b.ts(1,1): error TS7006: z").toList])] := by decide
    rw [he, sortByCount_of_sorted (by decide)]
    decide
  · rw [fileReportLines, fileReportEntries]
    have hf : file_errors (splitNl exampleText)
        = [(("a.ts").toList,
            [("a.ts(1,1): error TS2322: x").toList, ("a.ts(2,2): error TS2322: y").toList]),
           (("b.ts").toList, [("b.ts(1,1): error TS7006: z").toList])] := by decide
    rw [hf, sortByCount_of_sorted (by decide)]
    decide

/-- Splitting never yields the empty list of pieces. -/
theorem splitNl_ne_nil (s : List Char) : splitNl s ≠ [] := by
  induction s with
  | nil => simp [splitNl]
  | cons c rest ih =>
    rw [splitNl]
    by_cases hc : c = '\n'
    · rw [if_pos hc]; simp
    · rw [if_neg hc]
      cases h : splitNl rest with
      | nil => exact absurd h ih
      | cons p ps => simp

/-- A trailing newline adds exactly one final empty piece. -/
theorem splitNl_append_newline (s : List Char) :
    splitNl (s ++ ['\n']) = splitNl s ++ [[]] := by
  induction s with
  | nil => rfl
  | cons c rest ih =>
    rw [List.cons_append, splitNl]
    by_cases hc : c = '\n'
    · rw [if_pos hc, ih]
      conv_rhs => rw [splitNl, if_pos hc]
      simp
    · rw [if_neg hc, ih]
      cases h : splitNl rest with
      | nil => exact absurd h (splitNl_ne_nil rest)
      | cons p ps =>
        conv_rhs => rw [splitNl, if_neg hc, h]
        simp

/-- C10: appending one trailing newline to the input text leaves the
program's output unchanged — the split gains one final empty line, the
empty line matches neither extractor's pattern, both tallies are unchanged,
and the stdout stream is byte-identical. -/
theorem trailing_newline_invariance (text : List Char) :
    splitNl (text ++ ['\n']) = splitNl text ++ [[]]
    ∧ errorCodeOf [] = none ∧ filePathOf [] = none
    ∧ error_types (splitNl (text ++ ['\n'])) = error_types (splitNl text)
    ∧ file_errors (splitNl (text ++ ['\n'])) = file_errors (splitNl text)
    ∧ stdoutStream (text ++ ['\n']) = stdoutStream text := by
  have hsplit := splitNl_append_newline text
  have het : error_types (splitNl (text ++ ['\n'])) = error_types (splitNl text) := by
    rw [hsplit, error_types, buildTally, List.foldl_append]
    rfl
  have hfe : file_errors (splitNl (text ++ ['\n'])) = file_errors (splitNl text) := by
    rw [hsplit, file_errors, buildTally, List.foldl_append]
    rfl
  refine ⟨hsplit, rfl, rfl, het, hfe, ?_⟩
  rw [stdoutStream, programPrints, errorReportLines, fileReportLines, het, hfe]
  rfl

/-! ### Stdout stream lemmas -/

theorem sortByCount_nil : sortByCount [] = [] := by
  unfold sortByCount
  exact List.mergeSort_nil

theorem splitNl_no_newline (s : List Char) : ∀ l ∈ splitNl s, '\n' ∉ l := by
  induction s with
  | nil =>
    intro l hl
    rw [splitNl, List.mem_singleton] at hl
    subst hl
    simp
  | cons c rest ih =>
    intro l hl
    rw [splitNl] at hl
    by_cases hc : c = '\n'
    · rw [if_pos hc] at hl
      rcases List.mem_cons.mp hl with rfl | h2
      · simp
      · exact ih l h2
    · rw [if_neg hc] at hl
      cases h : splitNl rest with
      | nil => exact absurd h (splitNl_ne_nil rest)
      | cons p ps =>
        rw [h] at hl
        rcases List.mem_cons.mp hl with rfl | h2
        · have hp : '\n' ∉ p := ih p (by rw [h]; exact List.mem_cons_self p ps)
          simp only [List.mem_cons]
          rintro (h1 | h1)
          · exact hc h1.symm
          · exact hp h1
        · exact ih l (by rw [h]; exact List.mem_cons_of_mem p h2)

theorem natReprAux_no_newline : ∀ (fuel n : Nat), '\n' ∉ natReprAux fuel n := by
  intro fuel
  induction fuel with
  | zero => intro n; simp [natReprAux]
  | succ f ih =>
    intro n
    rw [natReprAux]
    have hdig : ∀ m, m < 10 → Nat.digitChar m ≠ '\n' := by decide
    by_cases h : n < 10
    · rw [if_pos h]
      simp only [List.mem_singleton]
      exact fun he => hdig n h he.symm
    · rw [if_neg h]
      intro hmem
      rcases List.mem_append.mp hmem with h2 | h2
      · exact ih (n / 10) h2
      · rw [List.mem_singleton] at h2
        exact hdig (n % 10) (Nat.mod_lt _ (by omega)) h2.symm

theorem natRepr_no_newline (n : Nat) : '\n' ∉ natRepr n := natReprAux_no_newline _ _

theorem fmtEntry_no_newline {k : Line} (hk : '\n' ∉ k) (n : Nat) :
    '\n' ∉ fmtEntry k n := by
  rw [fmtEntry]
  intro hmem
  simp only [List.mem_append] at hmem
  rcases hmem with ((h | h) | h) | h
  · exact hk h
  · revert h; decide
  · exact natRepr_no_newline n h
  · revert h; decide

theorem mem_addEntry (m : Tally) (k : Line) (v : Line) :
    ∀ p ∈ addEntry m k v, p.1 = k ∨ p ∈ m := by
  induction m with
  | nil =>
    intro p hp
    rw [addEntry, List.mem_singleton] at hp
    subst hp
    exact Or.inl rfl
  | cons q rest ih =>
    intro p hp
    obtain ⟨k', vs⟩ := q
    rw [addEntry] at hp
    by_cases h : k' = k
    · rw [if_pos h] at hp
      rcases List.mem_cons.mp hp with rfl | h2
      · exact Or.inl h
      · exact Or.inr (List.mem_cons_of_mem _ h2)
    · rw [if_neg h] at hp
      rcases List.mem_cons.mp hp with rfl | h2
      · exact Or.inr (List.mem_cons_self _ _)
      · rcases ih p h2 with h3 | h3
        · exact Or.inl h3
        · exact Or.inr (List.mem_cons_of_mem _ h3)

theorem mem_buildTally_key (f : List Char → Option (List Char)) :
    ∀ (lines : List Line) (m : Tally) (p : Line × List Line),
      p ∈ lines.foldl (tallyStep f) m → p ∈ m ∨ ∃ l ∈ lines, f l = some p.1 := by
  intro lines
  induction lines with
  | nil => intro m p hp; exact Or.inl hp
  | cons l0 ls ih =>
    intro m p hp
    rw [List.foldl_cons] at hp
    rcases ih (tallyStep f m l0) p hp with h1 | h1
    · cases hf : f l0 with
      | none =>
        simp only [tallyStep, hf] at h1
        exact Or.inl h1
      | some k =>
        simp only [tallyStep, hf] at h1
        rcases mem_addEntry m k l0 p h1 with h2 | h2
        · exact Or.inr ⟨l0, List.mem_cons_self _ _, by rw [hf, h2]⟩
        · exact Or.inl h2
    · obtain ⟨l, hl, hfl⟩ := h1
      exact Or.inr ⟨l, List.mem_cons_of_mem _ hl, hfl⟩

theorem errorCodeOf_no_newline {l c : List Char} (h : errorCodeOf l = some c) :
    '\n' ∉ c := by
  obtain ⟨i, hm, -⟩ := (errorCodeOf_eq_some_iff l c).mp h
  obtain ⟨ds, rest, hc, -, hdig, -, -⟩ := (matchErrorAt_eq_some_iff _ c).mp hm
  subst hc
  intro hmem
  rcases List.mem_cons.mp hmem with h1 | h1
  · exact absurd h1 (by decide)
  rcases List.mem_cons.mp h1 with h2 | h2
  · exact absurd h2 (by decide)
  · exact absurd (hdig '\n' h2) (by decide)

theorem filePathOf_no_newline {l p : List Char} (h : filePathOf l = some p)
    (hl : '\n' ∉ l) : '\n' ∉ p := by
  obtain ⟨-, -, rest, hdecomp⟩ := (filePathOf_eq_some_iff l p).mp h
  intro hmem
  apply hl
  rw [hdecomp]
  exact List.mem_append_left _ hmem

theorem errorReportLines_no_newline (lines : List Line) :
    ∀ l ∈ errorReportLines lines, '\n' ∉ l := by
  intro l hl
  rw [errorReportLines] at hl
  obtain ⟨p, hp, rfl⟩ := List.mem_map.mp hl
  rw [sortByCount] at hp
  have hp2 := List.mem_mergeSort.mp hp
  rw [error_types, buildTally] at hp2
  rcases mem_buildTally_key errorCodeOf lines [] p hp2 with h1 | h1
  · simp at h1
  · obtain ⟨l0, -, hf⟩ := h1
    exact fmtEntry_no_newline (errorCodeOf_no_newline hf) _

theorem fileReportLines_no_newline (text : List Char) :
    ∀ l ∈ fileReportLines (splitNl text), '\n' ∉ l := by
  intro l hl
  rw [fileReportLines, fileReportEntries] at hl
  obtain ⟨p, hp, rfl⟩ := List.mem_map.mp hl
  have hp1 := List.mem_of_mem_take (List.mem_of_mem_filter hp)
  rw [sortByCount] at hp1
  have hp2 := List.mem_mergeSort.mp hp1
  rw [file_errors, buildTally] at hp2
  rcases mem_buildTally_key filePathOf (splitNl text) [] p hp2 with h1 | h1
  · simp at h1
  · obtain ⟨l0, hl0, hf⟩ := h1
    exact fmtEntry_no_newline (filePathOf_no_newline hf (splitNl_no_newline text l0 hl0)) _

/-- C8 fails as stated: `print("\n" + "="*60)` writes an empty line before
the separator line, so on the empty input the stdout stream is not the
claimed sequence of error-report lines, separator, heading and file-report
lines alone. -/
theorem stdout_exact_lines_counterexample :
    stdoutStream [] ≠ ((errorReportLines (splitNl []) ++ [sepLine, headingLine]
        ++ fileReportLines (splitNl [])).map (fun s => s ++ ['\n'])).flatten := by
  have h1 : error_types (splitNl []) = [] := rfl
  have h2 : file_errors (splitNl []) = [] := rfl
  rw [stdoutStream, programPrints, errorReportLines, fileReportLines, fileReportEntries,
    h1, h2, sortByCount_nil]
  decide

/-- C8 amended: the stdout stream consists exactly of these newline-terminated
lines in order — the error-code report, one empty line, the separator of 60
`=` characters, the heading `Files with most errors:`, then the file report —
and every one of these lines is itself newline-free, so this is the line
decomposition a reader of the stream sees; nothing else is written. -/
theorem stdout_exact_lines (text : List Char) :
    stdoutStream text
      = ((errorReportLines (splitNl text) ++ [[], sepLine, headingLine]
          ++ fileReportLines (splitNl text)).map (fun s => s ++ ['\n'])).flatten
    ∧ (∀ l ∈ errorReportLines (splitNl text) ++ [[], sepLine, headingLine]
          ++ fileReportLines (splitNl text), '\n' ∉ l) := by
  constructor
  · rw [stdoutStream, programPrints]
    simp [List.append_assoc]
  · intro l hl
    rcases List.mem_append.mp hl with h1 | h1
    · rcases List.mem_append.mp h1 with h2 | h2
      · exact errorReportLines_no_newline (splitNl text) l h2
      · rcases List.mem_cons.mp h2 with rfl | h3
        · simp
        rcases List.mem_cons.mp h3 with rfl | h4
        · decide
        rcases List.mem_cons.mp h4 with rfl | h5
        · decide
        · simp at h5
    · exact fileReportLines_no_newline text l h1

/-- Witness for the amended C8 at the example input, reading off the heading
line's membership. -/
theorem stdout_exact_lines_witness :
    stdoutStream exampleText
      = ((errorReportLines (splitNl exampleText) ++ [[], sepLine, headingLine]
          ++ fileReportLines (splitNl exampleText)).map (fun s => s ++ ['\n'])).flatten
    ∧ '\n' ∉ headingLine := by
  constructor
  · exact (stdout_exact_lines exampleText).1
  · exact (stdout_exact_lines exampleText).2 headingLine
      (List.mem_append_left _ (List.mem_append_right _ (by decide)))
